import Mathlib

/-!
Verification development for the BitfinexLendingBot repository.

Shallow embedding conventions:
* Go `float64` values are modelled as `ℚ` (the algorithms verified here only
  compare, negate, take absolute values and multiply by decimal constants, so
  exact rational arithmetic is a faithful model of the comparisons performed).
* Go `interface{}` values produced by `json.Unmarshal` are modelled by `JVal`
  (plain `json.Unmarshal` into `interface{}` only ever produces `float64`,
  `string`, `bool`, `nil`, arrays and objects; the `int`/`json.Number` cases
  of the coercion helpers are therefore unreachable and not represented).
* `strconv.ParseFloat` (Go standard library, called by `util.SafeFloat64` on
  strings) is an external primitive; functions needing it take a parameter
  `pf : String → Option ℚ`.
* Fallible operations return `Option`/`Except`; network transport is an
  explicit oracle parameter.
-/

/-- Model of a value decoded by Go `json.Unmarshal` into `interface{}`. -/
inductive JVal where
  | num (q : ℚ)
  | str (s : String)
  | bool (b : Bool)
  | null
  | arr (l : List JVal)

/-- Go conversion `int(f)` for `f : float64`: truncation toward zero. -/
def qToInt (q : ℚ) : Int :=
  q.num.tdiv q.den

/-- Embeds `util.ToInt` (util.go lines 9-21) restricted to values that
`json.Unmarshal` can produce: a JSON number converts by truncation, every
other shape fails. -/
def ToInt : JVal → Option Int
  | .num q => some (qToInt q)
  | _ => none

/-- Embeds `util.ToFloat64` (util.go lines 24-36): a JSON number converts
to itself, every other shape fails. -/
def ToFloat64 : JVal → Option ℚ
  | .num q => some q
  | _ => none

/-- Embeds `util.SafeFloat64` (util.go lines 38-55): numbers convert,
strings go through `strconv.ParseFloat` (the external primitive `pf`),
booleans, null, arrays fail. -/
def SafeFloat64 (pf : String → Option ℚ) : JVal → Option ℚ
  | .num q => some q
  | .str s => pf s
  | _ => none

/-- Embeds `data.BitfinexOffer` (data.go lines 84-89). -/
structure BitfinexOffer where
  OfferID : Int
  Period : Int
  Rate : ℚ
  Amount : ℚ
deriving DecidableEq, Repr

/-- Decodes one raw book row by fixed position, embedding the shared decode
steps of the loops in `FindHighestRateForShortestPeriod` (data.go lines
468-480) and `FindHighestLendingRate` (data.go lines 531-542): rows shorter
than 4 are dropped, as is any row whose first four fields fail coercion. -/
def decodeBookRow (raw : List JVal) : Option BitfinexOffer :=
  if raw.length < 4 then none
  else do
    let offerID ← ToInt (raw.getD 0 .null)
    let period ← ToInt (raw.getD 1 .null)
    let rate ← ToFloat64 (raw.getD 2 .null)
    let amount ← ToFloat64 (raw.getD 3 .null)
    pure ⟨offerID, period, rate, amount⟩

/-- One step of the eligibility loop in `FindHighestRateForShortestPeriod`
(data.go lines 468-493): drop undecodable rows and rows with
`amount >= 0`, keep the decoded offer otherwise. -/
def bookEligible1 (raw : List JVal) : Option BitfinexOffer :=
  match decodeBookRow raw with
  | none => none
  | some o => if o.Amount ≥ 0 then none else some o

/-- The shared shape of the three Go decode loops (data.go lines 286-311,
468-493, 531-561): keep appending the per-row decode result when it
succeeds, skip the row (`continue`) when it fails. -/
def appendStep {α β : Type} (f : α → Option β) (acc : List β) (x : α) :
    List β :=
  match f x with
  | some b => acc ++ [b]
  | none => acc

/-- The `offers` slice built by `FindHighestRateForShortestPeriod`
(data.go lines 466-493), written as the same append-accumulating loop. -/
def eligibleOffers (rows : List (List JVal)) : List BitfinexOffer :=
  rows.foldl (appendStep bookEligible1) []

/-- The comparison handed to `sort.Slice` in data.go lines 500-502, as the
non-strict relation the resulting order satisfies. -/
def periodLE (a b : BitfinexOffer) : Prop :=
  a.Period ≤ b.Period

instance : DecidableRel periodLE := fun a b => Int.decLe a.Period b.Period

instance : IsTotal BitfinexOffer periodLE :=
  ⟨fun a b => Int.le_total a.Period b.Period⟩

instance : IsTrans BitfinexOffer periodLE :=
  ⟨fun _ _ _ hab hbc => le_trans hab hbc⟩

/-- One iteration of the scan in data.go lines 511-516: the accumulator is
`(bestOffer, highestRate)` and is replaced exactly when the offer has the
shortest period and a rate strictly above the running maximum. -/
def scanStep (shortest : Int) (acc : BitfinexOffer × ℚ) (o : BitfinexOffer) :
    BitfinexOffer × ℚ :=
  if o.Period = shortest ∧ o.Rate > acc.2 then (o, o.Rate) else acc

/-- The post-sort part of `FindHighestRateForShortestPeriod` (data.go lines
495-518): fail on an empty slice, otherwise read the shortest period from
position 0 and scan with initial accumulator `(zero-valued BitfinexOffer,
-1.0)` exactly as the Go `var bestOffer BitfinexOffer; highestRate := -1.0`
loop does. -/
def scanBest (offers : List BitfinexOffer) : Option BitfinexOffer :=
  match offers with
  | [] => none
  | o₀ :: _ =>
    some (offers.foldl (scanStep o₀.Period) (⟨0, 0, 0, 0⟩, -1)).1

/-- Embeds `data.FindHighestRateForShortestPeriod` (data.go lines 457-519)
on already-JSON-parsed rows.  Go sorts with the unstable `sort.Slice`; this
executable embedding instantiates the sort with the stable
`List.insertionSort`, and every theorem about the selection outcome below is
stated over an arbitrary `periodLE`-sorted permutation of `eligibleOffers`,
which covers every permutation the unstable Go sort may produce. -/
def FindHighestRateForShortestPeriod (rows : List (List JVal)) :
    Option BitfinexOffer :=
  scanBest (List.insertionSort periodLE (eligibleOffers rows))

/-- One step of the eligibility loop in `FindHighestLendingRate` (data.go
lines 531-561): drop undecodable rows, rows with `amount >= 0` and rows
with `period < minPeriod`; the kept offer stores `math.Abs(amount)`. -/
def lendEligible1 (minPeriod : Int) (raw : List JVal) : Option BitfinexOffer :=
  match decodeBookRow raw with
  | none => none
  | some o =>
    if o.Amount ≥ 0 then none
    else if o.Period < minPeriod then none
    else some ⟨o.OfferID, o.Period, o.Rate, abs o.Amount⟩

/-- The `offers` slice built by `FindHighestLendingRate` (data.go lines
529-561), written as the same append-accumulating loop. -/
def lendingEligible (rows : List (List JVal)) (minPeriod : Int) :
    List BitfinexOffer :=
  rows.foldl (appendStep (lendEligible1 minPeriod)) []

/-- One iteration of the selection loop in data.go lines 568-576: replace
the running best on a strictly higher rate, or on an equal rate with a
strictly shorter period. -/
def pickStep (best o : BitfinexOffer) : BitfinexOffer :=
  if o.Rate > best.Rate then o
  else if o.Rate = best.Rate ∧ o.Period < best.Period then o
  else best

/-- The post-filter part of `FindHighestLendingRate` (data.go lines
563-576): fail on an empty slice, otherwise start from element 0 and fold
`pickStep` over the rest. -/
def lendingPick (offers : List BitfinexOffer) : Option BitfinexOffer :=
  match offers with
  | [] => none
  | o₀ :: rest => some (rest.foldl pickStep o₀)

/-- Embeds `data.FindHighestLendingRate` (data.go lines 522-586) on
already-JSON-parsed rows (the trailing `fmt.Printf` reporting has no effect
on the returned value). -/
def FindHighestLendingRate (rows : List (List JVal)) (minPeriod : Int) :
    Option BitfinexOffer :=
  lendingPick (lendingEligible rows minPeriod)

/-- Embeds `data.FundingStat` (data.go lines 64-71); `Timestamp` is the Go
`int64(ts)` truncation. -/
structure FundingStat where
  Timestamp : Int
  FRR : ℚ
  AveragePeriod : ℚ
  FundingAmount : ℚ
  FundingAmountUsed : ℚ
  FundingBelowThreshold : ℚ
deriving DecidableEq, Repr

/-- Decodes one raw rate-statistics row, embedding the per-row body of the
loop in `parseFundingStats` (data.go lines 286-311): rows shorter than 12
are dropped, the six required fields sit at positions 0, 3, 4, 7, 8, 11 and
each must coerce via `SafeFloat64`. -/
def decodeStatRow (pf : String → Option ℚ) (raw : List JVal) :
    Option FundingStat :=
  if raw.length < 12 then none
  else do
    let ts ← SafeFloat64 pf (raw.getD 0 .null)
    let frr ← SafeFloat64 pf (raw.getD 3 .null)
    let avgPeriod ← SafeFloat64 pf (raw.getD 4 .null)
    let fundingAmt ← SafeFloat64 pf (raw.getD 7 .null)
    let fundingUsed ← SafeFloat64 pf (raw.getD 8 .null)
    let fundingBelow ← SafeFloat64 pf (raw.getD 11 .null)
    pure ⟨qToInt ts, frr, avgPeriod, fundingAmt, fundingUsed, fundingBelow⟩

/-- Embeds `data.parseFundingStats` (data.go lines 279-314) after the
whole-payload JSON parse, written as the same append-accumulating loop over
the raw rows. -/
def parseFundingStats (pf : String → Option ℚ) (rows : List (List JVal)) :
    List FundingStat :=
  rows.foldl (appendStep (decodeStatRow pf)) []

/-- Embeds `data.FundingOfferRequest` (data.go lines 30-37); `Typ` is the
Go field `Type` (renamed because `Type` is a Lean keyword). -/
structure FundingOfferRequest where
  Typ : String
  Symbol : String
  Amount : String
  Rate : String
  Period : Int
  Flags : Int
deriving DecidableEq, Repr

/-- Embeds `data.FundingOffer` (data.go lines 40-55); timestamps are
modelled as integer milliseconds and `Typ` is the Go field `Type`. -/
structure FundingOffer where
  ID : Int
  Symbol : String
  CreatedAt : Int
  UpdatedAt : Int
  Amount : ℚ
  AmountOriginal : ℚ
  Typ : String
  Flags : Int
  Status : String
  Rate : ℚ
  Period : Int
  Notify : Bool
  Hidden : Int
  Renew : Bool
deriving DecidableEq, Repr

/-- The validation-and-defaulting prefix of `Client.SubmitFundingOffer`
(data.go lines 624-641): reject an empty symbol, amount or rate and a
period outside `[2, 120]`, in that order, then default an empty type to
`"LIMIT"`.  Returns the request that would be sent on the wire. -/
def submitValidate (offer : FundingOfferRequest) :
    Except String FundingOfferRequest :=
  if offer.Symbol = "" then .error "symbol cannot be empty"
  else if offer.Amount = "" then .error "amount cannot be empty"
  else if offer.Rate = "" then .error "rate cannot be empty"
  else if offer.Period < 2 ∨ offer.Period > 120 then
    .error "period must be between 2 and 120 days"
  else if offer.Typ = "" then .ok { offer with Typ := "LIMIT" }
  else .ok offer

/-- Embeds `Client.SubmitFundingOffer` (data.go lines 623-685).  The
network call plus response decoding (lines 644-684, out-of-scope transport
per the specification) is the oracle `transport`; it is consulted only
after validation succeeds, and only with the validated (type-defaulted)
request. -/
def SubmitFundingOffer
    (transport : FundingOfferRequest → Except String FundingOffer)
    (offer : FundingOfferRequest) : Except String FundingOffer :=
  match submitValidate offer with
  | .error e => .error e
  | .ok sent => transport sent

/-- Outcome of a cancellation as observable from
`Client.CancelFundingOffer`: Go returning `nil`, Go returning an error
carrying the venue's message, a transport/JSON-level error, or a runtime
panic (failed type assertion or out-of-range index). -/
inductive CancelOutcome where
  | ok
  | failed (msg : String)
  | transportErr (e : String)
  | crashed
deriving DecidableEq, Repr

/-- Go type assertion `v.(string)`: the string when `v` is one, `none`
(a runtime panic at the assertion site) otherwise. -/
def asString : JVal → Option String
  | .str s => some s
  | _ => none

/-- Embeds `Client.CancelFundingOffer` (data.go lines 688-711).  The
request transport and whole-payload JSON parse are the oracle `transport`
mapping the offer id to the parsed response array.  The success check is
literally `len(response) >= 7 && response[6].(string) != "SUCCESS"`: a
response shorter than 7 elements short-circuits to success; a non-string
at index 6 panics; on a non-`"SUCCESS"` string the error message is the
type assertion `response[7].(string)`, which panics when index 7 is absent
or not a string. -/
def CancelFundingOffer (transport : Int → Except String (List JVal))
    (offerID : Int) : CancelOutcome :=
  match transport offerID with
  | .error e => .transportErr e
  | .ok response =>
    if 7 ≤ response.length then
      match asString (response.getD 6 .null) with
      | some s =>
        if s = "SUCCESS" then .ok
        else
          match asString (response.getD 7 .null) with
          | some m => .failed m
          | none => .crashed
      | none => .crashed
    else .ok

/-- Embeds `strategy.CurrentPredictOrder` (part_000 lines 20-25);
`Since` is integer milliseconds. -/
structure CurrentPredictOrder where
  ID : Int
  Rate : ℚ
  Period : Int
  Since : Int
deriving DecidableEq, Repr

/-- The in-memory tracking state of the strategy: the
`currentPredictOrder` slice and the `currentOrderBool` flag of
`StrategyManager` (part_000 lines 30-31). -/
structure EngineState where
  tracked : List CurrentPredictOrder
  trackedBool : Bool
deriving DecidableEq, Repr

/-- Observable request the strategy issues to the venue during one cycle.
Submitted amounts and rates are recorded as the numbers the strategy
computed (the Go code renders them with `fmt.Sprintf` just before the
call; that string formatting is presentation at the transport boundary and
is not modelled). -/
inductive Event where
  | cancel (id : Int)
  | submitFixed (amount rate : ℚ) (period : Int)
  | submitPredict (amount rate : ℚ) (period : Int)
  | sleep (secs : Nat)
deriving DecidableEq, Repr

/-- How one decision cycle ends: `fatal` models `log.Fatal` (process
terminates), `earlyReturn` models a bare `return` that skips the rest of
the cycle, `completed` means the whole body ran through to the final
sleep. -/
inductive CycleOutcome where
  | fatal
  | earlyReturn
  | completed
deriving DecidableEq, Repr

/-- Environment of one decision cycle: the result of every external call
`StrategyManager` can make.  Submission oracles cover
`Client.SubmitFundingOffer` as a whole (validation plus transport), and
`statsRes` covers `Client.GetFundingStat` (transport plus
`parseFundingStats`). -/
structure Oracle where
  totalRes : Except String (ℚ × ℚ)
  walletsRes : Except String (List (String × ℚ))
  bookRes : Except String (List (List JVal))
  statsRes : Except String (List FundingStat)
  fixedSubmit : Except String FundingOffer
  predictSubmit : Except String FundingOffer
  cancelRes : Int → Except String Unit

/-- Lookup in the funding-balance map returned by `Client.GetWallets`
(data.go lines 419-449), with the map abstracted as an association list. -/
def lookupBalance (w : List (String × ℚ)) (currency : String) : Option ℚ :=
  (w.find? (fun p => p.1 = currency)).map (fun p => p.2)

/-- The fixed allocation ratio set in part_000 lines 34-37. -/
def distributionFix : ℚ := 0.5

/-- The predictive allocation ratio set in part_000 lines 34-37. -/
def distributionPredict : ℚ := 0.5

/-- The minimum-order threshold used in part_000 lines 97, 105, 151, 159. -/
def minOrderThreshold : ℚ := 150

/-- The predictive-rate multiplier of part_000 line 190. -/
def predictMultiplier : ℚ := 1.3

/-- The fixed sleep interval of part_000 line 225, in seconds. -/
def cycleSleepSeconds : Nat := 300

/-- The cancellation loop of part_000 lines 170-175: attempt a cancel for
every tracked order in order; a failed cancel only contributes a log line
and never stops the loop.  Returns the issued cancel events and the
failure log lines. -/
def cancelLoop (cancelRes : Int → Except String Unit) :
    List CurrentPredictOrder → List Event × List String
  | [] => ([], [])
  | t :: rest =>
    let tail := cancelLoop cancelRes rest
    match cancelRes t.ID with
    | .ok _ => (Event.cancel t.ID :: tail.1, tail.2)
    | .error e => (Event.cancel t.ID :: tail.1, e :: tail.2)

/-- The cancel-existing-orders block of part_000 lines 169-178: when the
flag is set, run the cancellation loop over every tracked order, then
unconditionally clear the slice and the flag; when the flag is unset, do
nothing.  Returns (issued events, failure logs, new slice, new flag). -/
def cancelAllTracked (cancelRes : Int → Except String Unit)
    (tracked : List CurrentPredictOrder) (flag : Bool) :
    List Event × List String × List CurrentPredictOrder × Bool :=
  if flag then
    let r := cancelLoop cancelRes tracked
    (r.1, r.2, [], false)
  else ([], [], tracked, flag)

/-- The fixed-lending leg of the cycle (part_000 lines 96-148): when the
remaining fixed allocation exceeds the threshold, clamp it to the
available balance, and when still above the threshold fetch the book,
select an offer and submit; a book or selection failure is an early return
(`none`); a submission failure contributes only a log line (part_000 lines
139-143), and the available balance is decremented by the clamped amount
regardless of the submission outcome (part_000 line 144).  Returns (issued
events, failure log lines, available balance after the leg). -/
def fixedLeg (o : Oracle) (remainFix avail : ℚ) :
    Option (List Event × List String × ℚ) :=
  if remainFix > minOrderThreshold then
    let clamped := if avail < remainFix then avail else remainFix
    if clamped > minOrderThreshold then
      match o.bookRes with
      | .error _ => none
      | .ok rows =>
        match FindHighestRateForShortestPeriod rows with
        | none => none
        | some best =>
          some ([Event.submitFixed clamped best.Rate best.Period],
            (match o.fixedSubmit with
             | .error e => ["Failed to submit fixed lending order: " ++ e]
             | .ok _ => []),
            avail - clamped)
    else some ([], [], avail)
  else some ([], [], avail)

/-- The predictive-lending leg of the cycle (part_000 lines 150-223): when
the remaining predictive allocation exceeds the threshold, clamp it to the
available balance, and when still above the threshold fetch the rate
statistics (failure is an early return, `none`); when statistics are
nonempty, first run `cancelAllTracked`, then submit a 2-day offer at
`FRR * 1.3`; on submission success append the new order to the slice and
set the flag, on failure keep the post-cancellation state and contribute a
log line.  Returns (issued events, failure log lines, new tracked slice,
new flag). -/
def predictiveLeg (o : Oracle) (remainPredict avail : ℚ)
    (tracked : List CurrentPredictOrder) (flag : Bool) :
    Option (List Event × List String × List CurrentPredictOrder × Bool) :=
  if remainPredict > minOrderThreshold then
    let clamped := if avail < remainPredict then avail else remainPredict
    if clamped > minOrderThreshold then
      match o.statsRes with
      | .error _ => none
      | .ok stats =>
        match stats with
        | [] => some ([], [], tracked, flag)
        | latest :: _ =>
          let c := cancelAllTracked o.cancelRes tracked flag
          let predictRate := latest.FRR * predictMultiplier
          match o.predictSubmit with
          | .error e =>
            some (c.1 ++ [Event.submitPredict clamped predictRate 2],
              c.2.1 ++ ["Failed to submit predictive lending order: " ++ e],
              c.2.2.1, c.2.2.2)
          | .ok res =>
            some (c.1 ++ [Event.submitPredict clamped predictRate 2],
              c.2.1,
              c.2.2.1 ++ [⟨res.ID, res.Rate, res.Period, res.CreatedAt⟩],
              true)
    else some ([], [], tracked, flag)
  else some ([], [], tracked, flag)

/-- Assembles the result of a cycle after the fixed leg: an early return
of the predictive leg keeps the entering state; a completed predictive leg
appends the final `time.Sleep(300 * time.Second)` of part_000 line 225. -/
def finishCycle (ev1 : List Event) (s : EngineState) :
    Option (List Event × List String × List CurrentPredictOrder × Bool) →
    CycleOutcome × List Event × EngineState
  | none => (.earlyReturn, ev1, s)
  | some (ev2, _logs, tr, b) =>
    (.completed, ev1 ++ ev2 ++ [Event.sleep cycleSleepSeconds], ⟨tr, b⟩)

/-- Embeds one run of the body of `strategy.StrategyManager` (part_000
lines 55-226) over the call-result oracle, threading the tracking state
explicitly.  The credential bootstrap of lines 39-53 is process
configuration (out-of-scope per the specification) and is not modelled;
log lines produced by the legs are printing and are discarded here.
A failure fetching total balances or wallets is `log.Fatal` (process
termination); an absent `"USD"` funding wallet is a plain `return` (early
return, part_000 lines 72-75). -/
def StrategyManagerCycle (o : Oracle) (s : EngineState) :
    CycleOutcome × List Event × EngineState :=
  match o.totalRes with
  | .error _ => (.fatal, [], s)
  | .ok (usdBalance, _ustBalance) =>
    match o.walletsRes with
    | .error _ => (.fatal, [], s)
    | .ok wallets =>
      match lookupBalance wallets "USD" with
      | none => (.earlyReturn, [], s)
      | some availableUsdBalance =>
        let fixUsdBalance := usdBalance * distributionFix
        let predictUsdBalance := usdBalance * distributionPredict
        let alreadyLent := usdBalance - availableUsdBalance
        let remainFix := fixUsdBalance - alreadyLent * distributionFix
        let remainPredict :=
          predictUsdBalance - alreadyLent * distributionPredict
        match fixedLeg o remainFix availableUsdBalance with
        | none => (.earlyReturn, [], s)
        | some (ev1, _logs1, avail1) =>
          finishCycle ev1 s
            (predictiveLeg o remainPredict avail1 s.tracked s.trackedBool)

/-- Modelled from the spec: the repository sources under verification
contain only the single-cycle body (`StrategyManager` neither loops nor is
its caller present); per the specification the process driver runs cycles
one after another indefinitely, each cycle starting afresh from reading
balances, and only a fatal configuration error terminates the process.
`engineTrace os s₀ n` is the tracking state before cycle `n`, or `none`
once a fatal outcome has terminated the process. -/
def engineTrace (os : Nat → Oracle) (s₀ : EngineState) :
    Nat → Option EngineState
  | 0 => some s₀
  | n + 1 =>
    (engineTrace os s₀ n).bind fun s =>
      match StrategyManagerCycle (os n) s with
      | (.fatal, _, _) => none
      | (_, _, s') => some s'

/-- Concrete book rows whose single row has rate `-2`: every field
coerces, the amount is negative, but the rate is at or below the `-1.0`
sentinel of the scan in data.go lines 508-516. -/
def rowsNegRate : List (List JVal) :=
  [[JVal.num 1, JVal.num 2, JVal.num (-2), JVal.num (-5)]]

/-- Concrete book rows with one well-behaved eligible row. -/
def rowsOneGood : List (List JVal) :=
  [[JVal.num 1, JVal.num 2, JVal.num 1, JVal.num (-3)]]

/-- The offer decoded from the single row of `rowsOneGood`. -/
def offerOneGood : BitfinexOffer := ⟨1, 2, 1, -3⟩

/-- Concrete book rows for the minimum-period selection: the second row
has the globally highest rate but a period below the minimum tenor 2. -/
def rowsLending : List (List JVal) :=
  [[JVal.num 1, JVal.num 5, JVal.num 3, JVal.num (-10)],
   [JVal.num 2, JVal.num 1, JVal.num 9, JVal.num (-10)]]

/-- The offer `FindHighestLendingRate` selects from `rowsLending` with
minimum period 2 (amount already made absolute). -/
def offerLending : BitfinexOffer := ⟨1, 5, 3, 10⟩

/-- A concrete rate statistic: flash return rate `0.0001`. -/
def stat0 : FundingStat := ⟨0, 1 / 10000, 2, 0, 0, 0⟩

/-- A concrete venue confirmation for a submitted predictive offer. -/
def offer0 : FundingOffer :=
  ⟨9, "fUSD", 0, 0, 500, 500, "LIMIT", 0, "ACTIVE", 13 / 100000, 2,
    false, 0, false⟩

/-- A concrete cycle environment on which every fetch succeeds, the fixed
submission is refused by the venue, and the predictive submission is
confirmed as `offer0`. -/
def okOracle : Oracle where
  totalRes := .ok (1000, 0)
  walletsRes := .ok [("USD", 1000)]
  bookRes := .ok rowsOneGood
  statsRes := .ok [stat0]
  fixedSubmit := .error "refused"
  predictSubmit := .ok offer0
  cancelRes := fun _ => .ok ()

/-- A concrete cycle environment whose wallet snapshot has no `"USD"`
funding wallet. -/
def cexOracle : Oracle where
  totalRes := .ok (100, 0)
  walletsRes := .ok [("BTC", 1)]
  bookRes := .error "unused"
  statsRes := .error "unused"
  fixedSubmit := .error "unused"
  predictSubmit := .error "unused"
  cancelRes := fun _ => .ok ()

lemma foldl_appendStep_eq {α β : Type} (f : α → Option β) :
    ∀ (l : List α) (acc : List β),
      l.foldl (appendStep f) acc = acc ++ l.filterMap f
  | [], acc => by simp
  | x :: l, acc => by
    rw [List.foldl_cons, foldl_appendStep_eq f l]
    cases h : f x with
    | some b => simp [appendStep, h, List.filterMap_cons]
    | none => simp [appendStep, h, List.filterMap_cons]

lemma scanFold_acc_or_mem (s : Int) :
    ∀ (l : List BitfinexOffer) (acc : BitfinexOffer × ℚ),
      l.foldl (scanStep s) acc = acc ∨
        ∃ b, b ∈ l ∧ l.foldl (scanStep s) acc = (b, b.Rate) ∧ b.Period = s
  | [], _ => Or.inl rfl
  | a :: l, acc => by
    rw [List.foldl_cons]
    rcases scanFold_acc_or_mem s l (scanStep s acc a) with h | ⟨b, hbl, hf, hp⟩
    · rw [h]
      by_cases hc : a.Period = s ∧ a.Rate > acc.2
      · refine Or.inr ⟨a, List.mem_cons_self a l, ?_, hc.1⟩
        simp only [scanStep]
        rw [if_pos hc]
      · left
        simp only [scanStep]
        rw [if_neg hc]
    · exact Or.inr ⟨b, List.mem_cons_of_mem a hbl, hf, hp⟩

lemma scanFold_snd_ge (s : Int) :
    ∀ (l : List BitfinexOffer) (acc : BitfinexOffer × ℚ),
      acc.2 ≤ (l.foldl (scanStep s) acc).2
  | [], _ => le_refl _
  | a :: l, acc => by
    rw [List.foldl_cons]
    refine le_trans ?_ (scanFold_snd_ge s l (scanStep s acc a))
    by_cases hc : a.Period = s ∧ a.Rate > acc.2
    · simp only [scanStep]
      rw [if_pos hc]
      exact le_of_lt hc.2
    · simp only [scanStep]
      rw [if_neg hc]

lemma scanFold_snd_ub (s : Int) :
    ∀ (l : List BitfinexOffer) (acc : BitfinexOffer × ℚ) (o : BitfinexOffer),
      o ∈ l → o.Period = s → o.Rate ≤ (l.foldl (scanStep s) acc).2
  | [], _, o => fun h _ => absurd h (List.not_mem_nil o)
  | a :: l, acc, o => fun hmem hper => by
    rw [List.foldl_cons]
    rcases List.mem_cons.mp hmem with rfl | hl
    · refine le_trans ?_ (scanFold_snd_ge s l (scanStep s acc o))
      by_cases hc : o.Period = s ∧ o.Rate > acc.2
      · simp only [scanStep]
        rw [if_pos hc]
      · simp only [scanStep]
        rw [if_neg hc]
        exact not_lt.mp (fun hgt => hc ⟨hper, hgt⟩)
    · exact scanFold_snd_ub s l (scanStep s acc a) o hl hper

lemma scanBest_sorted_spec (E l : List BitfinexOffer)
    (hperm : l.Perm E) (hsort : List.Sorted periodLE l)
    (hmin : ∃ o, o ∈ E ∧ -1 < o.Rate ∧ ∀ x, x ∈ E → o.Period ≤ x.Period) :
    ∃ b, scanBest l = some b ∧ b ∈ E ∧
      (∀ x, x ∈ E → b.Period ≤ x.Period) ∧
      (∀ x, x ∈ E → x.Period = b.Period → x.Rate ≤ b.Rate) := by
  obtain ⟨o, hoE, hoRate, hoMin⟩ := hmin
  have hol : o ∈ l := hperm.mem_iff.mpr hoE
  cases l with
  | nil => exact absurd hol (List.not_mem_nil o)
  | cons h t =>
    have hmemE : ∀ x, x ∈ h :: t → x ∈ E := fun x hx => hperm.mem_iff.mp hx
    have hEmem : ∀ x, x ∈ E → x ∈ h :: t := fun x hx => hperm.mem_iff.mpr hx
    have hhead_le : ∀ x, x ∈ h :: t → h.Period ≤ x.Period := by
      intro x hx
      rcases List.mem_cons.mp hx with rfl | hxt
      · exact le_refl _
      · exact (List.sorted_cons.mp hsort).1 x hxt
    have hoh : o.Period = h.Period :=
      le_antisymm (hoMin h (hmemE h (List.mem_cons_self h t))) (hhead_le o hol)
    rcases scanFold_acc_or_mem h.Period (h :: t) (⟨0, 0, 0, 0⟩, -1)
      with hacc | ⟨b, hbl, hfold, hbper⟩
    · exfalso
      have hub := scanFold_snd_ub h.Period (h :: t) (⟨0, 0, 0, 0⟩, -1) o hol hoh
      rw [hacc] at hub
      exact absurd (lt_of_lt_of_le hoRate hub) (lt_irrefl _)
    · refine ⟨b, ?_, hmemE b hbl, ?_, ?_⟩
      · show some ((h :: t).foldl (scanStep h.Period) (⟨0, 0, 0, 0⟩, -1)).1 = some b
        rw [hfold]
      · intro x hx
        rw [hbper]
        exact hhead_le x (hEmem x hx)
      · intro x hx hxp
        have hub := scanFold_snd_ub h.Period (h :: t) (⟨0, 0, 0, 0⟩, -1) x
          (hEmem x hx) (by rw [hxp, hbper])
        rw [hfold] at hub
        exact hub

/-- The scan outcome of `FindHighestRateForShortestPeriod` depends on which
period-sorted permutation the unstable `sort.Slice` produced: two eligible
offers sharing the minimal period and the maximal rate, in the two possible
sorted orders, make the scan return different offers.  Input order is
therefore not a tie-break the code guarantees. -/
lemma scanBest_depends_on_sort_order :
    scanBest [⟨1, 2, 1, -3⟩, ⟨2, 2, 1, -4⟩] = some ⟨1, 2, 1, -3⟩ ∧
    scanBest [⟨2, 2, 1, -4⟩, ⟨1, 2, 1, -3⟩] = some ⟨2, 2, 1, -4⟩ ∧
    List.Perm [(⟨1, 2, 1, -3⟩ : BitfinexOffer), ⟨2, 2, 1, -4⟩]
      [⟨2, 2, 1, -4⟩, ⟨1, 2, 1, -3⟩] ∧
    List.Sorted periodLE [(⟨1, 2, 1, -3⟩ : BitfinexOffer), ⟨2, 2, 1, -4⟩] ∧
    List.Sorted periodLE [(⟨2, 2, 1, -4⟩ : BitfinexOffer), ⟨1, 2, 1, -3⟩] := by
  refine ⟨by decide, by decide, ?_, ?_, ?_⟩
  · exact List.Perm.swap _ _ _
  · simp [List.sorted_cons, periodLE]
  · simp [List.sorted_cons, periodLE]

/-- C1 (amended).  For every decoded book-offer sequence, and every
period-sorted permutation `l` of the eligible (`signedAmount < 0`, all
fields coercing) offers — which covers every order the unstable
`sort.Slice` may produce — provided some eligible offer of minimal period
has rate above the `-1.0` scan sentinel, the selection returns an eligible
entry whose `periodDays` equals the minimum `periodDays` among eligible
entries and whose rate is maximal among entries sharing that minimum
period; the same holds for the executable `FindHighestRateForShortestPeriod`.
Which maximal-rate entry is returned on rate ties depends on the sorted
permutation (see `scanBest_depends_on_sort_order`), so the original
claim's input-order tie-break is not guaranteed. -/
theorem FindHighestRateForShortestPeriod_spec :
    ∀ (rows : List (List JVal)) (l : List BitfinexOffer),
      l.Perm (eligibleOffers rows) →
      List.Sorted periodLE l →
      (∃ o, o ∈ eligibleOffers rows ∧ -1 < o.Rate ∧
         ∀ x, x ∈ eligibleOffers rows → o.Period ≤ x.Period) →
      (∃ b, scanBest l = some b ∧ b ∈ eligibleOffers rows ∧
         (∀ x, x ∈ eligibleOffers rows → b.Period ≤ x.Period) ∧
         (∀ x, x ∈ eligibleOffers rows → x.Period = b.Period →
            x.Rate ≤ b.Rate)) ∧
      (∃ b, FindHighestRateForShortestPeriod rows = some b ∧
         b ∈ eligibleOffers rows ∧
         (∀ x, x ∈ eligibleOffers rows → b.Period ≤ x.Period) ∧
         (∀ x, x ∈ eligibleOffers rows → x.Period = b.Period →
            x.Rate ≤ b.Rate)) := by
  intro rows l hperm hsort hmin
  refine ⟨scanBest_sorted_spec (eligibleOffers rows) l hperm hsort hmin, ?_⟩
  exact scanBest_sorted_spec (eligibleOffers rows)
    (List.insertionSort periodLE (eligibleOffers rows))
    (List.perm_insertionSort periodLE (eligibleOffers rows))
    (List.sorted_insertionSort periodLE (eligibleOffers rows)) hmin

/-- Witness for C1: the amended theorem applied to the concrete one-row
book `rowsOneGood` and the sorted permutation `[offerOneGood]`. -/
theorem FindHighestRateForShortestPeriod_spec_witness :
    (∃ b, scanBest [offerOneGood] = some b ∧ b ∈ eligibleOffers rowsOneGood ∧
       (∀ x, x ∈ eligibleOffers rowsOneGood → b.Period ≤ x.Period) ∧
       (∀ x, x ∈ eligibleOffers rowsOneGood → x.Period = b.Period →
          x.Rate ≤ b.Rate)) ∧
    (∃ b, FindHighestRateForShortestPeriod rowsOneGood = some b ∧
       b ∈ eligibleOffers rowsOneGood ∧
       (∀ x, x ∈ eligibleOffers rowsOneGood → b.Period ≤ x.Period) ∧
       (∀ x, x ∈ eligibleOffers rowsOneGood → x.Period = b.Period →
          x.Rate ≤ b.Rate)) :=
  FindHighestRateForShortestPeriod_spec rowsOneGood [offerOneGood]
    (List.Perm.refl _) (by simp [List.sorted_singleton])
    ⟨offerOneGood, by decide, by decide, by decide⟩

/-- Counterexample to C1 as stated: on a decoded book whose single entry
has all fields coercing, `signedAmount = -5 < 0`, period `2` and rate
`-2`, the code returns the zero-valued offer left in `bestOffer` by the
`-1.0` sentinel scan, whose period `0` differs from the minimum eligible
period `2`. -/
theorem FindHighestRateForShortestPeriod_claim_fails :
    eligibleOffers rowsNegRate = [⟨1, 2, -2, -5⟩] ∧
    FindHighestRateForShortestPeriod rowsNegRate = some ⟨0, 0, 0, 0⟩ ∧
    (BitfinexOffer.mk 0 0 0 0).Period ≠ (BitfinexOffer.mk 1 2 (-2) (-5)).Period := by
  refine ⟨by decide, by decide, by decide⟩

lemma pickStep_eq_or (b a : BitfinexOffer) :
    pickStep b a = a ∨ pickStep b a = b := by
  simp only [pickStep]
  by_cases h1 : a.Rate > b.Rate
  · rw [if_pos h1]
    exact Or.inl rfl
  · rw [if_neg h1]
    by_cases h2 : a.Rate = b.Rate ∧ a.Period < b.Period
    · rw [if_pos h2]
      exact Or.inl rfl
    · rw [if_neg h2]
      exact Or.inr rfl

lemma pickFold_mem : ∀ (l : List BitfinexOffer) (b : BitfinexOffer),
    l.foldl pickStep b = b ∨ l.foldl pickStep b ∈ l
  | [], _ => Or.inl rfl
  | a :: l, b => by
    rw [List.foldl_cons]
    rcases pickFold_mem l (pickStep b a) with h | h
    · rw [h]
      rcases pickStep_eq_or b a with h2 | h2
      · rw [h2]
        exact Or.inr (List.mem_cons_self a l)
      · rw [h2]
        exact Or.inl rfl
    · exact Or.inr (List.mem_cons_of_mem a h)

lemma pickFold_rate_init : ∀ (l : List BitfinexOffer) (b : BitfinexOffer),
    b.Rate ≤ (l.foldl pickStep b).Rate
  | [], _ => le_refl _
  | a :: l, b => by
    rw [List.foldl_cons]
    refine le_trans ?_ (pickFold_rate_init l (pickStep b a))
    simp only [pickStep]
    by_cases h1 : a.Rate > b.Rate
    · rw [if_pos h1]
      exact le_of_lt h1
    · rw [if_neg h1]
      by_cases h2 : a.Rate = b.Rate ∧ a.Period < b.Period
      · rw [if_pos h2]
        exact le_of_eq h2.1.symm
      · rw [if_neg h2]

lemma pickFold_rate_ub : ∀ (l : List BitfinexOffer) (b o : BitfinexOffer),
    o ∈ l → o.Rate ≤ (l.foldl pickStep b).Rate
  | [], _, o => fun h => absurd h (List.not_mem_nil o)
  | a :: l, b, o => fun hmem => by
    rw [List.foldl_cons]
    rcases List.mem_cons.mp hmem with rfl | hl
    · refine le_trans ?_ (pickFold_rate_init l (pickStep b o))
      simp only [pickStep]
      by_cases h1 : o.Rate > b.Rate
      · rw [if_pos h1]
      · rw [if_neg h1]
        by_cases h2 : o.Rate = b.Rate ∧ o.Period < b.Period
        · rw [if_pos h2]
        · rw [if_neg h2]
          exact not_lt.mp h1
    · exact pickFold_rate_ub l (pickStep b a) o hl

lemma pickFold_period (l : List BitfinexOffer) : ∀ (b : BitfinexOffer),
    ((l.foldl pickStep b).Rate = b.Rate →
       (l.foldl pickStep b).Period ≤ b.Period) ∧
    (∀ o, o ∈ l → (l.foldl pickStep b).Rate = o.Rate →
       (l.foldl pickStep b).Period ≤ o.Period) := by
  induction l with
  | nil =>
    intro b
    exact ⟨fun _ => le_refl _, fun o h => absurd h (List.not_mem_nil o)⟩
  | cons a l ih =>
    intro b
    rw [List.foldl_cons]
    constructor
    · intro hrate
      by_cases h1 : a.Rate > b.Rate
      · exfalso
        have hstep : pickStep b a = a := by
          simp only [pickStep]
          rw [if_pos h1]
        rw [hstep] at hrate
        have hge := pickFold_rate_init l a
        rw [hrate] at hge
        exact absurd h1 (not_lt.mpr hge)
      · by_cases h2 : a.Rate = b.Rate ∧ a.Period < b.Period
        · have hstep : pickStep b a = a := by
            simp only [pickStep]
            rw [if_neg h1, if_pos h2]
          rw [hstep] at hrate ⊢
          have hper := (ih a).1 (hrate.trans h2.1.symm)
          exact le_trans hper (le_of_lt h2.2)
        · have hstep : pickStep b a = b := by
            simp only [pickStep]
            rw [if_neg h1, if_neg h2]
          rw [hstep] at hrate ⊢
          exact (ih b).1 hrate
    · intro o hmem hrate
      rcases List.mem_cons.mp hmem with rfl | hl
      · by_cases h1 : o.Rate > b.Rate
        · have hstep : pickStep b o = o := by
            simp only [pickStep]
            rw [if_pos h1]
          rw [hstep] at hrate ⊢
          exact (ih o).1 hrate
        · by_cases h2 : o.Rate = b.Rate ∧ o.Period < b.Period
          · have hstep : pickStep b o = o := by
              simp only [pickStep]
              rw [if_neg h1, if_pos h2]
            rw [hstep] at hrate ⊢
            exact (ih o).1 hrate
          · have hstep : pickStep b o = b := by
              simp only [pickStep]
              rw [if_neg h1, if_neg h2]
            rw [hstep] at hrate ⊢
            have hob : o.Rate = b.Rate := by
              have h3 := pickFold_rate_init l b
              rw [hrate] at h3
              exact le_antisymm (not_lt.mp h1) h3
            have hper : b.Period ≤ o.Period := by
              by_contra hcon
              exact h2 ⟨hob, not_le.mp hcon⟩
            exact le_trans ((ih b).1 (hrate.trans hob)) hper
      · rcases pickStep_eq_or b a with hstep | hstep
        · rw [hstep] at hrate ⊢
          exact (ih a).2 o hl hrate
        · rw [hstep] at hrate ⊢
          exact (ih b).2 o hl hrate

lemma lendEligible1_spec (mp : Int) (raw : List JVal) (b : BitfinexOffer)
    (h : lendEligible1 mp raw = some b) :
    ∃ o, decodeBookRow raw = some o ∧ o.Amount < 0 ∧ mp ≤ o.Period ∧
      b = ⟨o.OfferID, o.Period, o.Rate, abs o.Amount⟩ := by
  cases hdec : decodeBookRow raw with
  | none =>
    simp only [lendEligible1, hdec] at h
    exact Option.noConfusion h
  | some o =>
    simp only [lendEligible1, hdec] at h
    by_cases h1 : o.Amount ≥ 0
    · rw [if_pos h1] at h
      exact absurd h (by simp)
    · rw [if_neg h1] at h
      by_cases h2 : o.Period < mp
      · rw [if_pos h2] at h
        exact absurd h (by simp)
      · rw [if_neg h2] at h
        exact ⟨o, rfl, not_le.mp h1, not_lt.mp h2, (Option.some.inj h).symm⟩

/-- C2.  For every book-offer sequence and minimum tenor:
if no entry is eligible (`signedAmount < 0` and `periodDays` at least the
minimum), `FindHighestLendingRate` fails (`NoOffersAvailable`); otherwise
it returns an eligible entry, never one below the requested minimum
period, with maximal rate among eligible entries, rate ties resolved
toward the smaller period, and its amount is the absolute value of the
signed amount of the decoded source row. -/
theorem FindHighestLendingRate_spec :
    ∀ (rows : List (List JVal)) (minPeriod : Int),
      (lendingEligible rows minPeriod = [] →
         FindHighestLendingRate rows minPeriod = none) ∧
      (∀ b, FindHighestLendingRate rows minPeriod = some b →
         b ∈ lendingEligible rows minPeriod ∧
         minPeriod ≤ b.Period ∧
         (∀ o, o ∈ lendingEligible rows minPeriod → o.Rate ≤ b.Rate) ∧
         (∀ o, o ∈ lendingEligible rows minPeriod → o.Rate = b.Rate →
            b.Period ≤ o.Period) ∧
         (∃ raw, raw ∈ rows ∧ ∃ o, decodeBookRow raw = some o ∧
            o.Amount < 0 ∧ minPeriod ≤ o.Period ∧
            b = ⟨o.OfferID, o.Period, o.Rate, abs o.Amount⟩)) := by
  intro rows minPeriod
  constructor
  · intro hnil
    unfold FindHighestLendingRate
    rw [hnil]
    rfl
  · intro b hb
    unfold FindHighestLendingRate at hb
    cases he : lendingEligible rows minPeriod with
    | nil =>
      rw [he] at hb
      exact Option.noConfusion hb
    | cons o₀ rest =>
      rw [he] at hb
      have hbeq : rest.foldl pickStep o₀ = b := Option.some.inj hb
      have hmem : b ∈ o₀ :: rest := by
        rcases pickFold_mem rest o₀ with h | h
        · rw [hbeq] at h
          rw [h]
          exact List.mem_cons_self o₀ rest
        · rw [hbeq] at h
          exact List.mem_cons_of_mem o₀ h
      have hmemE : b ∈ lendingEligible rows minPeriod := by
        rw [he]
        exact hmem
      have horigin : ∃ raw, raw ∈ rows ∧ ∃ o, decodeBookRow raw = some o ∧
          o.Amount < 0 ∧ minPeriod ≤ o.Period ∧
          b = ⟨o.OfferID, o.Period, o.Rate, abs o.Amount⟩ := by
        have hfm : b ∈ rows.filterMap (lendEligible1 minPeriod) := by
          have := foldl_appendStep_eq (lendEligible1 minPeriod) rows []
          unfold lendingEligible at hmemE
          rw [this] at hmemE
          simpa using hmemE
        obtain ⟨raw, hraw, hsome⟩ := List.mem_filterMap.mp hfm
        obtain ⟨o, hdec, hneg, hper, hbeq2⟩ :=
          lendEligible1_spec minPeriod raw b hsome
        exact ⟨raw, hraw, o, hdec, hneg, hper, hbeq2⟩
      have hperiod : minPeriod ≤ b.Period := by
        obtain ⟨raw, _, o, _, _, hper, hbeq2⟩ := horigin
        rw [hbeq2]
        exact hper
      refine ⟨hmem, hperiod, ?_, ?_, horigin⟩
      · intro o ho
        rcases List.mem_cons.mp ho with rfl | ho'
        · rw [← hbeq]
          exact pickFold_rate_init rest o
        · rw [← hbeq]
          exact pickFold_rate_ub rest o₀ o ho'
      · intro o ho hrate
        have hrate' : (rest.foldl pickStep o₀).Rate = o.Rate := by
          rw [hbeq, hrate]
        rcases List.mem_cons.mp ho with rfl | ho'
        · rw [← hbeq]
          exact (pickFold_period rest o).1 hrate'
        · rw [← hbeq]
          exact (pickFold_period rest o₀).2 o ho' hrate'

/-- Witness for C2: the theorem applied to the concrete book `rowsLending`
with minimum tenor 2; the row with the globally highest rate 9 has period
1 and is excluded, the selected offer reports the absolute amount 10. -/
theorem FindHighestLendingRate_spec_witness :
    offerLending ∈ lendingEligible rowsLending 2 ∧
    (2 : Int) ≤ offerLending.Period ∧
    (∀ o, o ∈ lendingEligible rowsLending 2 → o.Rate ≤ offerLending.Rate) ∧
    (∀ o, o ∈ lendingEligible rowsLending 2 → o.Rate = offerLending.Rate →
       offerLending.Period ≤ o.Period) ∧
    (∃ raw, raw ∈ rowsLending ∧ ∃ o, decodeBookRow raw = some o ∧
       o.Amount < 0 ∧ (2 : Int) ≤ o.Period ∧
       offerLending = ⟨o.OfferID, o.Period, o.Rate, abs o.Amount⟩) :=
  (FindHighestLendingRate_spec rowsLending 2).2 offerLending (by decide)

/-- C9.  The positional decoders drop silently exactly the records that
are too short or fail coercion, and keep the surviving typed records in
input order: the rate-statistics loop equals `filterMap` of the per-row
decode (so order is the input order and failures leave no trace), any row
shorter than 12 fields decodes to nothing, the book-offer loop likewise
equals `filterMap` of its per-row step, the example book row
`[101, 2, 0.00015, -500.0]` decodes to the corresponding offer, and a
3-field book row is dropped without failing the whole decode. -/
theorem decoder_drops_silently_preserving_order :
    (∀ (pf : String → Option ℚ) (rows : List (List JVal)),
       parseFundingStats pf rows = rows.filterMap (decodeStatRow pf)) ∧
    (∀ (pf : String → Option ℚ) (raw : List JVal),
       raw.length < 12 → decodeStatRow pf raw = none) ∧
    (∀ rows : List (List JVal),
       eligibleOffers rows = rows.filterMap bookEligible1) ∧
    decodeBookRow [.num 101, .num 2, .num 0.00015, .num (-500)] =
      some ⟨101, 2, 0.00015, -500⟩ ∧
    decodeBookRow [.num 101, .num 2, .num 0.00015] = none ∧
    eligibleOffers
        [[JVal.num 101, JVal.num 2, JVal.num 0.00015, JVal.num (-500)],
         [JVal.num 102, JVal.num 2, JVal.num 0.00015]] =
      [⟨101, 2, 0.00015, -500⟩] := by
  refine ⟨?_, ?_, ?_, rfl, rfl, rfl⟩
  · intro pf rows
    unfold parseFundingStats
    rw [foldl_appendStep_eq (decodeStatRow pf) rows []]
    rfl
  · intro pf raw hlen
    unfold decodeStatRow
    rw [if_pos hlen]
  · intro rows
    unfold eligibleOffers
    rw [foldl_appendStep_eq bookEligible1 rows []]
    rfl

/-- Witness for C9: the short-row conjunct applied to a concrete 1-field
row and a coercion primitive. -/
theorem decoder_drops_silently_preserving_order_witness :
    decodeStatRow (fun _ => none) [JVal.null] = none :=
  decoder_drops_silently_preserving_order.2.1 (fun _ => none) [JVal.null]
    (by decide)

/-- C5 (amended).  For every cancel response that the transport delivers,
cancellation succeeds if and only if the parsed response has fewer than 7
elements or carries the literal string `"SUCCESS"` at index 6; it fails
with the venue's message `m` if and only if the response has at least 7
elements, a string other than `"SUCCESS"` at index 6, and the string `m`
at index 7 (a non-string at index 6, or a missing/non-string index 7 on
the failure path, panics instead of failing). -/
theorem cancel_success_criterion :
    ∀ (transport : Int → Except String (List JVal)) (offerID : Int)
      (response : List JVal),
      transport offerID = .ok response →
      (CancelFundingOffer transport offerID = .ok ↔
         response.length < 7 ∨
           asString (response.getD 6 .null) = some "SUCCESS") ∧
      (∀ m, CancelFundingOffer transport offerID = .failed m ↔
         7 ≤ response.length ∧
         (∃ s, asString (response.getD 6 .null) = some s ∧ s ≠ "SUCCESS") ∧
         asString (response.getD 7 .null) = some m) := by
  intro transport offerID response htr
  by_cases hlen : 7 ≤ response.length
  · cases h6 : asString (response.getD 6 .null) with
    | none =>
      have hval : CancelFundingOffer transport offerID = .crashed := by
        unfold CancelFundingOffer
        simp only [htr]
        rw [if_pos hlen]
        simp only [h6]
      rw [hval]
      constructor
      · constructor
        · intro h
          exact CancelOutcome.noConfusion h
        · intro h
          rcases h with h | h
          · exact absurd hlen (not_le.mpr h)
          · exact Option.noConfusion h
      · intro m
        constructor
        · intro h
          exact CancelOutcome.noConfusion h
        · rintro ⟨-, ⟨s, hs6, -⟩, -⟩
          exact Option.noConfusion hs6
    | some s =>
      by_cases hs : s = "SUCCESS"
      · have hval : CancelFundingOffer transport offerID = .ok := by
          unfold CancelFundingOffer
          simp only [htr]
          rw [if_pos hlen]
          simp only [h6]
          rw [if_pos hs]
        rw [hval]
        constructor
        · constructor
          · intro _
            refine Or.inr ?_
            rw [hs]
          · intro _
            rfl
        · intro m
          constructor
          · intro h
            exact CancelOutcome.noConfusion h
          · rintro ⟨-, ⟨s', hs6, hne⟩, -⟩
            exact absurd ((Option.some.inj hs6).symm.trans hs) hne
      · cases h7 : asString (response.getD 7 .null) with
        | none =>
          have hval : CancelFundingOffer transport offerID = .crashed := by
            unfold CancelFundingOffer
            simp only [htr]
            rw [if_pos hlen]
            simp only [h6]
            rw [if_neg hs]
            simp only [h7]
          rw [hval]
          constructor
          · constructor
            · intro h
              exact CancelOutcome.noConfusion h
            · intro h
              rcases h with h | h
              · exact absurd hlen (not_le.mpr h)
              · exact absurd (Option.some.inj h) hs
          · intro m
            constructor
            · intro h
              exact CancelOutcome.noConfusion h
            · rintro ⟨-, -, h7'⟩
              exact Option.noConfusion h7'
        | some m' =>
          have hval : CancelFundingOffer transport offerID = .failed m' := by
            unfold CancelFundingOffer
            simp only [htr]
            rw [if_pos hlen]
            simp only [h6]
            rw [if_neg hs]
            simp only [h7]
          rw [hval]
          constructor
          · constructor
            · intro h
              exact CancelOutcome.noConfusion h
            · intro h
              rcases h with h | h
              · exact absurd hlen (not_le.mpr h)
              · exact absurd (Option.some.inj h) hs
          · intro m
            constructor
            · intro h
              refine ⟨hlen, ⟨s, rfl, hs⟩, ?_⟩
              rw [CancelOutcome.failed.inj h]
            · rintro ⟨-, -, h7'⟩
              rw [Option.some.inj h7']
  · have hval : CancelFundingOffer transport offerID = .ok := by
      unfold CancelFundingOffer
      simp only [htr]
      rw [if_neg hlen]
    rw [hval]
    constructor
    · constructor
      · intro _
        exact Or.inl (not_le.mp hlen)
      · intro _
        rfl
    · intro m
      constructor
      · intro h
        exact CancelOutcome.noConfusion h
      · rintro ⟨hlen', -, -⟩
        exact absurd hlen' hlen

/-- Witness for C5: the amended criterion applied to a concrete 8-element
response carrying `"ERROR"` at index 6 and the venue message at index 7
shows the cancel fails with that message. -/
theorem cancel_success_criterion_witness :
    CancelFundingOffer
        (fun _ => .ok [JVal.null, JVal.null, JVal.null, JVal.null, JVal.null,
          JVal.null, JVal.str "ERROR", JVal.str "offer not found"]) 1 =
      CancelOutcome.failed "offer not found" :=
  ((cancel_success_criterion
      (fun _ => .ok [JVal.null, JVal.null, JVal.null, JVal.null, JVal.null,
        JVal.null, JVal.str "ERROR", JVal.str "offer not found"]) 1
      [JVal.null, JVal.null, JVal.null, JVal.null, JVal.null,
        JVal.null, JVal.str "ERROR", JVal.str "offer not found"] rfl).2
    "offer not found").mpr
    (by refine ⟨by decide, ⟨"ERROR", rfl, by decide⟩, rfl⟩)

/-- Counterexample to C5 as stated: an empty parsed cancel response has no
`"SUCCESS"` marker at index 6, yet the code reports success, because the
check `len(response) >= 7 && response[6].(string) != "SUCCESS"`
short-circuits to `nil`. -/
theorem cancel_short_response_succeeds :
    CancelFundingOffer (fun _ => .ok []) 1 = CancelOutcome.ok ∧
    asString (([] : List JVal).getD 6 .null) ≠ some "SUCCESS" :=
  ⟨rfl, fun h => Option.noConfusion h⟩

/-- C8.  A `FundingOfferRequest` with an empty symbol, empty amount, empty
rate, or a period outside `[2, 120]` fails validation with an error that
is independent of the transport — no transport call is attempted, the
whole of `SubmitFundingOffer` returns the same error for every transport —
and when validation succeeds the sent request's type field is `"LIMIT"`
whenever it was unspecified, and unchanged otherwise. -/
theorem submit_validation_fails_fast :
    ∀ offer : FundingOfferRequest,
      ((offer.Symbol = "" ∨ offer.Amount = "" ∨ offer.Rate = "" ∨
          offer.Period < 2 ∨ offer.Period > 120) →
        ∃ e, ∀ transport, SubmitFundingOffer transport offer = .error e) ∧
      (∀ sent, submitValidate offer = .ok sent →
        sent.Typ = (if offer.Typ = "" then "LIMIT" else offer.Typ)) := by
  intro offer
  constructor
  · intro hbad
    by_cases h1 : offer.Symbol = ""
    · refine ⟨"symbol cannot be empty", fun transport => ?_⟩
      unfold SubmitFundingOffer submitValidate
      rw [if_pos h1]
    · by_cases h2 : offer.Amount = ""
      · refine ⟨"amount cannot be empty", fun transport => ?_⟩
        unfold SubmitFundingOffer submitValidate
        rw [if_neg h1, if_pos h2]
      · by_cases h3 : offer.Rate = ""
        · refine ⟨"rate cannot be empty", fun transport => ?_⟩
          unfold SubmitFundingOffer submitValidate
          rw [if_neg h1, if_neg h2, if_pos h3]
        · have h4 : offer.Period < 2 ∨ offer.Period > 120 := by
            rcases hbad with h | h | h | h | h
            · exact absurd h h1
            · exact absurd h h2
            · exact absurd h h3
            · exact Or.inl h
            · exact Or.inr h
          refine ⟨"period must be between 2 and 120 days", fun transport => ?_⟩
          unfold SubmitFundingOffer submitValidate
          rw [if_neg h1, if_neg h2, if_neg h3, if_pos h4]
  · intro sent hsent
    unfold submitValidate at hsent
    by_cases h1 : offer.Symbol = ""
    · rw [if_pos h1] at hsent
      exact Except.noConfusion hsent
    · rw [if_neg h1] at hsent
      by_cases h2 : offer.Amount = ""
      · rw [if_pos h2] at hsent
        exact Except.noConfusion hsent
      · rw [if_neg h2] at hsent
        by_cases h3 : offer.Rate = ""
        · rw [if_pos h3] at hsent
          exact Except.noConfusion hsent
        · rw [if_neg h3] at hsent
          by_cases h4 : offer.Period < 2 ∨ offer.Period > 120
          · rw [if_pos h4] at hsent
            exact Except.noConfusion hsent
          · rw [if_neg h4] at hsent
            by_cases h5 : offer.Typ = ""
            · rw [if_pos h5] at hsent
              rw [if_pos h5, ← Except.ok.inj hsent]
            · rw [if_neg h5] at hsent
              rw [if_neg h5, ← Except.ok.inj hsent]

/-- Witness for C8: requests with period 1 and period 121 (all other
fields populated) are rejected before any transport is consulted. -/
theorem submit_validation_fails_fast_witness :
    (∃ e, ∀ transport, SubmitFundingOffer transport
        ⟨"", "fUSD", "200.00", "0.000100", 1, 0⟩ = .error e) ∧
    (∃ e, ∀ transport, SubmitFundingOffer transport
        ⟨"", "fUSD", "200.00", "0.000100", 121, 0⟩ = .error e) :=
  ⟨(submit_validation_fails_fast ⟨"", "fUSD", "200.00", "0.000100", 1, 0⟩).1
      (Or.inr (Or.inr (Or.inr (Or.inl (by decide))))),
   (submit_validation_fails_fast ⟨"", "fUSD", "200.00", "0.000100", 121, 0⟩).1
      (Or.inr (Or.inr (Or.inr (Or.inr (by decide)))))⟩

lemma cancelLoop_events (res : Int → Except String Unit) :
    ∀ tracked : List CurrentPredictOrder,
      (cancelLoop res tracked).1 = tracked.map (fun t => Event.cancel t.ID)
  | [] => rfl
  | t :: rest => by
    cases h : res t.ID with
    | ok u =>
      simp only [cancelLoop, h, List.map_cons]
      exact congrArg _ (cancelLoop_events res rest)
    | error e =>
      simp only [cancelLoop, h, List.map_cons]
      exact congrArg _ (cancelLoop_events res rest)

/-- C6.  Whatever the per-order cancellation outcomes are (`res` may fail
on any subset of the ids), the cancel-existing-orders block issues one
cancellation attempt per tracked order, in order — a failure never blocks
the subsequent attempts — and afterwards the tracked slice is
unconditionally empty and the flag unconditionally cleared. -/
theorem cancelAllTracked_attempts_all_then_clears :
    ∀ (res : Int → Except String Unit)
      (tracked : List CurrentPredictOrder),
      (cancelAllTracked res tracked true).1 =
        tracked.map (fun t => Event.cancel t.ID) ∧
      (cancelAllTracked res tracked true).2.2.1 = [] ∧
      (cancelAllTracked res tracked true).2.2.2 = false := by
  intro res tracked
  refine ⟨?_, rfl, rfl⟩
  exact cancelLoop_events res tracked

lemma cancelAllTracked_inv (res : Int → Except String Unit)
    (tracked : List CurrentPredictOrder) (flag : Bool)
    (hinv : tracked ≠ [] → flag = true) :
    (cancelAllTracked res tracked flag).1 =
      tracked.map (fun t => Event.cancel t.ID) ∧
    (cancelAllTracked res tracked flag).2.2.1 = [] ∧
    (cancelAllTracked res tracked flag).2.2.2 = false := by
  cases flag with
  | false =>
    have htr0 : tracked = [] := by
      by_contra hne
      exact Bool.noConfusion (hinv hne)
    subst htr0
    exact ⟨rfl, rfl, rfl⟩
  | true =>
    exact ⟨cancelLoop_events res tracked, rfl, rfl⟩

/-- C7.  In the predictive leg, under the state invariant the cycle
maintains (a nonempty tracked slice implies the flag is set), whenever a
predictive submission event occurs, the issued events are exactly one
cancellation per previously tracked order followed by the submission —
every tracked order is cancelled first, whatever the newly computed rate
is — the submitted tenor is the fixed 2 days, and afterwards the tracked
slice holds exactly the new order when the submission succeeded and is
empty when it failed. -/
theorem predictive_replace_before_submit :
    ∀ (o : Oracle) (remainPredict avail : ℚ)
      (tracked : List CurrentPredictOrder) (flag : Bool)
      (ev : List Event) (logs : List String)
      (tr' : List CurrentPredictOrder) (b' : Bool),
      (tracked ≠ [] → flag = true) →
      predictiveLeg o remainPredict avail tracked flag =
        some (ev, logs, tr', b') →
      ∀ amt rate p, Event.submitPredict amt rate p ∈ ev →
        p = 2 ∧
        ev = tracked.map (fun t => Event.cancel t.ID) ++
          [Event.submitPredict amt rate p] ∧
        ((∃ res, o.predictSubmit = .ok res ∧
            tr' = [⟨res.ID, res.Rate, res.Period, res.CreatedAt⟩] ∧
            b' = true) ∨
         (∃ err, o.predictSubmit = .error err ∧ tr' = [] ∧ b' = false)) := by
  intro o rp av tracked flag ev logs tr' b' hinv hleg
  obtain ⟨hc1, hc3, hc4⟩ := cancelAllTracked_inv o.cancelRes tracked flag hinv
  simp only [predictiveLeg] at hleg
  by_cases hrp : rp > minOrderThreshold
  · rw [if_pos hrp] at hleg
    by_cases hcl : (if av < rp then av else rp) > minOrderThreshold
    · rw [if_pos hcl] at hleg
      cases hst : o.statsRes with
      | error e =>
        simp only [hst] at hleg
        exact Option.noConfusion hleg
      | ok stats =>
        simp only [hst] at hleg
        cases stats with
        | nil =>
          simp only [Option.some.injEq, Prod.mk.injEq] at hleg
          obtain ⟨hev, -, -, -⟩ := hleg
          intro amt rate p hmem
          rw [← hev] at hmem
          exact absurd hmem (List.not_mem_nil _)
        | cons latest rest =>
          cases hps : o.predictSubmit with
          | error err =>
            simp only [hps, Option.some.injEq, Prod.mk.injEq] at hleg
            obtain ⟨hev, hlogs, htr2, hb2⟩ := hleg
            intro amt rate p hmem
            rw [← hev] at hmem
            rw [hc1] at hmem
            rcases List.mem_append.mp hmem with hm | hm
            · obtain ⟨t, -, ht⟩ := List.mem_map.mp hm
              exact Event.noConfusion ht
            · rw [List.mem_singleton] at hm
              obtain ⟨hamt, hrate, hp⟩ := Event.submitPredict.inj hm
              refine ⟨hp, ?_, Or.inr ⟨err, rfl, ?_, ?_⟩⟩
              · rw [← hev, hc1, ← hm]
              · rw [← htr2, hc3]
              · rw [← hb2, hc4]
          | ok res =>
            simp only [hps, Option.some.injEq, Prod.mk.injEq] at hleg
            obtain ⟨hev, hlogs, htr2, hb2⟩ := hleg
            intro amt rate p hmem
            rw [← hev] at hmem
            rw [hc1] at hmem
            rcases List.mem_append.mp hmem with hm | hm
            · obtain ⟨t, -, ht⟩ := List.mem_map.mp hm
              exact Event.noConfusion ht
            · rw [List.mem_singleton] at hm
              obtain ⟨hamt, hrate, hp⟩ := Event.submitPredict.inj hm
              refine ⟨hp, ?_, Or.inl ⟨res, rfl, ?_, hb2.symm⟩⟩
              · rw [← hev, hc1, ← hm]
              · rw [← htr2, hc3]
                rfl
    · rw [if_neg hcl] at hleg
      simp only [Option.some.injEq, Prod.mk.injEq] at hleg
      obtain ⟨hev, -, -, -⟩ := hleg
      intro amt rate p hmem
      rw [← hev] at hmem
      exact absurd hmem (List.not_mem_nil _)
  · rw [if_neg hrp] at hleg
    simp only [Option.some.injEq, Prod.mk.injEq] at hleg
    obtain ⟨hev, -, -, -⟩ := hleg
    intro amt rate p hmem
    rw [← hev] at hmem
    exact absurd hmem (List.not_mem_nil _)

/-- Witness for C7: the theorem applied to a concrete leg run with one
tracked order (id 5) on `okOracle`: the cancel for id 5 precedes the new
2-day submission, and the tracked slice afterwards holds only the new
order from `offer0`. -/
theorem predictive_replace_before_submit_witness :
    (2 : Int) = 2 ∧
    [Event.cancel 5,
      Event.submitPredict 500 (stat0.FRR * predictMultiplier) 2] =
      List.map (fun t => Event.cancel t.ID)
          ([⟨5, 1, 2, 0⟩] : List CurrentPredictOrder) ++
        [Event.submitPredict 500 (stat0.FRR * predictMultiplier) 2] ∧
    ((∃ res, okOracle.predictSubmit = .ok res ∧
        ([⟨offer0.ID, offer0.Rate, offer0.Period, offer0.CreatedAt⟩] :
          List CurrentPredictOrder) =
          [⟨res.ID, res.Rate, res.Period, res.CreatedAt⟩] ∧
        (true : Bool) = true) ∨
     (∃ err, okOracle.predictSubmit = .error err ∧
        ([⟨offer0.ID, offer0.Rate, offer0.Period, offer0.CreatedAt⟩] :
          List CurrentPredictOrder) = [] ∧
        (true : Bool) = false)) :=
  predictive_replace_before_submit okOracle 500 1000 [⟨5, 1, 2, 0⟩] true
    [Event.cancel 5,
      Event.submitPredict 500 (stat0.FRR * predictMultiplier) 2]
    [] [⟨offer0.ID, offer0.Rate, offer0.Period, offer0.CreatedAt⟩] true
    (fun _ => rfl) rfl 500 (stat0.FRR * predictMultiplier) 2
    (List.mem_cons_of_mem _ (List.mem_cons_self _ _))

/-- C4 (amended).  When the funding wallet for the primary currency
(`"USD"`) is absent from a successfully fetched wallet snapshot, the cycle
prints a message and returns early — the rest of the cycle is skipped, no
request is issued, the tracking state is untouched, and the process is not
terminated.  (Fatal termination, `log.Fatal`, occurs instead when fetching
total balances or the wallet snapshot itself fails.) -/
theorem missing_usd_wallet_skips_cycle :
    ∀ (o : Oracle) (s : EngineState) (usd ust : ℚ)
      (w : List (String × ℚ)),
      o.totalRes = .ok (usd, ust) →
      o.walletsRes = .ok w →
      lookupBalance w "USD" = none →
      StrategyManagerCycle o s = (.earlyReturn, [], s) := by
  intro o s usd ust w h1 h2 h3
  unfold StrategyManagerCycle
  simp only [h1, h2, h3]

/-- Witness for C4 (amended): the theorem applied to the concrete
environment `cexOracle`, whose snapshot has only a `"BTC"` wallet. -/
theorem missing_usd_wallet_skips_cycle_witness :
    StrategyManagerCycle cexOracle ⟨[], false⟩ =
      (.earlyReturn, [], ⟨[], false⟩) :=
  missing_usd_wallet_skips_cycle cexOracle ⟨[], false⟩ 100 0 [("BTC", 1)]
    rfl rfl rfl

/-- Counterexample to C4 as stated: on `cexOracle` (balances fetch
succeeds, snapshot has no `"USD"` funding wallet) the cycle outcome is an
early return, not the fatal process termination the claim asserts. -/
theorem missing_usd_wallet_not_fatal :
    StrategyManagerCycle cexOracle ⟨[], false⟩ =
      (.earlyReturn, [], ⟨[], false⟩) ∧
    CycleOutcome.earlyReturn ≠ CycleOutcome.fatal :=
  ⟨rfl, fun h => CycleOutcome.noConfusion h⟩

/-- C10.  In the fixed leg, once the clamped fixed amount exceeds the
minimum order threshold and an offer was selected from the book, the
in-cycle available balance handed to the rest of the cycle is
`avail - clamped` even when the venue refuses the fixed submission
(`fixedSubmit` is an error): the submission outcome only contributes a log
line, and the predictive leg of the same cycle receives the decremented
balance for its own clamp. -/
theorem failed_fixed_submit_still_decrements :
    ∀ (o : Oracle) (s : EngineState) (usd ust avail remainFix clamped : ℚ)
      (w : List (String × ℚ)) (rows : List (List JVal))
      (best : BitfinexOffer) (e : String),
      o.totalRes = .ok (usd, ust) →
      o.walletsRes = .ok w →
      lookupBalance w "USD" = some avail →
      o.bookRes = .ok rows →
      FindHighestRateForShortestPeriod rows = some best →
      o.fixedSubmit = .error e →
      remainFix = usd * distributionFix - (usd - avail) * distributionFix →
      clamped = (if avail < remainFix then avail else remainFix) →
      remainFix > minOrderThreshold →
      clamped > minOrderThreshold →
      fixedLeg o remainFix avail =
        some ([Event.submitFixed clamped best.Rate best.Period],
          ["Failed to submit fixed lending order: " ++ e],
          avail - clamped) ∧
      StrategyManagerCycle o s =
        finishCycle [Event.submitFixed clamped best.Rate best.Period] s
          (predictiveLeg o
            (usd * distributionPredict - (usd - avail) * distributionPredict)
            (avail - clamped) s.tracked s.trackedBool) := by
  intro o s usd ust avail remainFix clamped w rows best e
    h1 h2 h3 h4 h5 h6 hrf hcl hfg hcg
  have hfl : fixedLeg o remainFix avail =
      some ([Event.submitFixed clamped best.Rate best.Period],
        ["Failed to submit fixed lending order: " ++ e],
        avail - clamped) := by
    simp only [fixedLeg]
    rw [if_pos hfg, ← hcl, if_pos hcg]
    simp only [h4, h5, h6]
  refine ⟨hfl, ?_⟩
  unfold StrategyManagerCycle
  simp only [h1, h2, h3]
  rw [← hrf]
  simp only [hfl]

/-- Witness for C10: the theorem applied to the concrete environment
`okOracle`, on which the venue refuses the fixed submission yet the
predictive leg is invoked with the decremented balance `1000 - 500`. -/
theorem failed_fixed_submit_still_decrements_witness :
    fixedLeg okOracle 500 1000 =
      some ([Event.submitFixed 500 1 2],
        ["Failed to submit fixed lending order: " ++ "refused"],
        1000 - 500) ∧
    StrategyManagerCycle okOracle ⟨[], false⟩ =
      finishCycle [Event.submitFixed 500 1 2] ⟨[], false⟩
        (predictiveLeg okOracle
          (1000 * distributionPredict - (1000 - 1000) * distributionPredict)
          (1000 - 500) [] false) :=
  failed_fixed_submit_still_decrements okOracle ⟨[], false⟩ 1000 0 1000 500 500
    [("USD", 1000)] rowsOneGood ⟨1, 2, 1, -3⟩ "refused"
    rfl rfl rfl rfl (by decide) rfl
    (by norm_num [distributionFix])
    (by rw [if_neg (by norm_num)])
    (by norm_num [minOrderThreshold])
    (by norm_num [minOrderThreshold])

lemma fixedLeg_no_sleep :
    ∀ (o : Oracle) (rf av : ℚ) (ev : List Event) (logs : List String)
      (av' : ℚ),
      fixedLeg o rf av = some (ev, logs, av') →
      ∀ e ∈ ev, ∀ k, e ≠ Event.sleep k := by
  intro o rf av ev logs av' h
  simp only [fixedLeg] at h
  by_cases h1 : rf > minOrderThreshold
  · rw [if_pos h1] at h
    by_cases h2 : (if av < rf then av else rf) > minOrderThreshold
    · rw [if_pos h2] at h
      cases hb : o.bookRes with
      | error e2 =>
        simp only [hb] at h
        exact Option.noConfusion h
      | ok rows =>
        simp only [hb] at h
        cases hf : FindHighestRateForShortestPeriod rows with
        | none =>
          simp only [hf] at h
          exact Option.noConfusion h
        | some best =>
          simp only [hf, Option.some.injEq, Prod.mk.injEq] at h
          obtain ⟨hev, -, -⟩ := h
          intro e he k
          rw [← hev, List.mem_singleton] at he
          rw [he]
          exact fun hc => Event.noConfusion hc
    · rw [if_neg h2] at h
      simp only [Option.some.injEq, Prod.mk.injEq] at h
      obtain ⟨hev, -, -⟩ := h
      intro e he
      rw [← hev] at he
      exact absurd he (List.not_mem_nil _)
  · rw [if_neg h1] at h
    simp only [Option.some.injEq, Prod.mk.injEq] at h
    obtain ⟨hev, -, -⟩ := h
    intro e he
    rw [← hev] at he
    exact absurd he (List.not_mem_nil _)

lemma cancelAllTracked_events_are_cancels
    (res : Int → Except String Unit)
    (tracked : List CurrentPredictOrder) (flag : Bool) :
    ∀ e ∈ (cancelAllTracked res tracked flag).1, ∃ id, e = Event.cancel id := by
  cases flag with
  | false =>
    intro e he
    exact absurd he (List.not_mem_nil _)
  | true =>
    intro e he
    have h1 : (cancelAllTracked res tracked true).1 =
        tracked.map (fun t => Event.cancel t.ID) := cancelLoop_events res tracked
    rw [h1] at he
    obtain ⟨t, -, ht⟩ := List.mem_map.mp he
    exact ⟨t.ID, ht.symm⟩

lemma predictiveLeg_no_sleep :
    ∀ (o : Oracle) (rp av : ℚ) (tracked : List CurrentPredictOrder)
      (flag : Bool) (ev : List Event) (logs : List String)
      (tr' : List CurrentPredictOrder) (b' : Bool),
      predictiveLeg o rp av tracked flag = some (ev, logs, tr', b') →
      ∀ e ∈ ev, ∀ k, e ≠ Event.sleep k := by
  intro o rp av tracked flag ev logs tr' b' h
  simp only [predictiveLeg] at h
  by_cases h1 : rp > minOrderThreshold
  · rw [if_pos h1] at h
    by_cases h2 : (if av < rp then av else rp) > minOrderThreshold
    · rw [if_pos h2] at h
      cases hst : o.statsRes with
      | error e2 =>
        simp only [hst] at h
        exact Option.noConfusion h
      | ok stats =>
        simp only [hst] at h
        cases stats with
        | nil =>
          simp only [Option.some.injEq, Prod.mk.injEq] at h
          obtain ⟨hev, -, -, -⟩ := h
          intro e he
          rw [← hev] at he
          exact absurd he (List.not_mem_nil _)
        | cons latest rest =>
          have hmain : ∀ e ∈ (cancelAllTracked o.cancelRes tracked flag).1 ++
              [Event.submitPredict (if av < rp then av else rp)
                (latest.FRR * predictMultiplier) 2],
              ∀ k, e ≠ Event.sleep k := by
            intro e he k
            rcases List.mem_append.mp he with hm | hm
            · obtain ⟨id, rfl⟩ :=
                cancelAllTracked_events_are_cancels o.cancelRes tracked flag e hm
              exact fun hc => Event.noConfusion hc
            · rw [List.mem_singleton] at hm
              rw [hm]
              exact fun hc => Event.noConfusion hc
          cases hps : o.predictSubmit with
          | error err =>
            simp only [hps, Option.some.injEq, Prod.mk.injEq] at h
            obtain ⟨hev, -, -, -⟩ := h
            intro e he
            rw [← hev] at he
            exact hmain e he
          | ok res =>
            simp only [hps, Option.some.injEq, Prod.mk.injEq] at h
            obtain ⟨hev, -, -, -⟩ := h
            intro e he
            rw [← hev] at he
            exact hmain e he
    · rw [if_neg h2] at h
      simp only [Option.some.injEq, Prod.mk.injEq] at h
      obtain ⟨hev, -, -, -⟩ := h
      intro e he
      rw [← hev] at he
      exact absurd he (List.not_mem_nil _)
  · rw [if_neg h1] at h
    simp only [Option.some.injEq, Prod.mk.injEq] at h
    obtain ⟨hev, -, -, -⟩ := h
    intro e he
    rw [← hev] at he
    exact absurd he (List.not_mem_nil _)

/-- C3.  A cycle that completes both legs ends with exactly one sleep
event, of the fixed 300-second interval, after all other requests of the
cycle; and — with the driver loop modelled from the spec — as long as no
cycle ends fatally the engine trace is defined at every index: there is no
terminal state, each cycle feeding its state to the next, which starts
afresh from reading balances. -/
theorem strategy_cycle_sleeps_and_repeats :
    (∀ (o : Oracle) (s : EngineState) (out : CycleOutcome) (ev : List Event)
       (s' : EngineState),
       StrategyManagerCycle o s = (out, ev, s') → out = .completed →
       ∃ pre, ev = pre ++ [Event.sleep cycleSleepSeconds] ∧
         ∀ e ∈ pre, ∀ k, e ≠ Event.sleep k) ∧
    (∀ (os : Nat → Oracle) (s₀ : EngineState),
       (∀ n st, engineTrace os s₀ n = some st →
          (StrategyManagerCycle (os n) st).1 ≠ .fatal) →
       ∀ n, ∃ st, engineTrace os s₀ n = some st) := by
  constructor
  · intro o s out ev s' hcy hout
    unfold StrategyManagerCycle at hcy
    cases h1 : o.totalRes with
    | error e =>
      simp only [h1, Prod.mk.injEq] at hcy
      obtain ⟨hfa, -, -⟩ := hcy
      rw [← hfa] at hout
      exact CycleOutcome.noConfusion hout
    | ok pair =>
      obtain ⟨usd, ust⟩ := pair
      simp only [h1] at hcy
      cases h2 : o.walletsRes with
      | error e =>
        simp only [h2, Prod.mk.injEq] at hcy
        obtain ⟨hfa, -, -⟩ := hcy
        rw [← hfa] at hout
        exact CycleOutcome.noConfusion hout
      | ok w =>
        simp only [h2] at hcy
        cases h3 : lookupBalance w "USD" with
        | none =>
          simp only [h3, Prod.mk.injEq] at hcy
          obtain ⟨hfa, -, -⟩ := hcy
          rw [← hfa] at hout
          exact CycleOutcome.noConfusion hout
        | some avail =>
          simp only [h3] at hcy
          cases h4 : fixedLeg o
              (usd * distributionFix - (usd - avail) * distributionFix)
              avail with
          | none =>
            simp only [h4, Prod.mk.injEq] at hcy
            obtain ⟨hfa, -, -⟩ := hcy
            rw [← hfa] at hout
            exact CycleOutcome.noConfusion hout
          | some trip =>
            obtain ⟨ev1, logs1, avail1⟩ := trip
            simp only [h4] at hcy
            cases h5 : predictiveLeg o
                (usd * distributionPredict -
                  (usd - avail) * distributionPredict)
                avail1 s.tracked s.trackedBool with
            | none =>
              rw [h5] at hcy
              simp only [finishCycle, Prod.mk.injEq] at hcy
              obtain ⟨hfa, -, -⟩ := hcy
              rw [← hfa] at hout
              exact CycleOutcome.noConfusion hout
            | some quad =>
              obtain ⟨ev2, logs2, tr, b⟩ := quad
              rw [h5] at hcy
              simp only [finishCycle, Prod.mk.injEq] at hcy
              obtain ⟨-, hev, -⟩ := hcy
              refine ⟨ev1 ++ ev2, ?_, ?_⟩
              · rw [← hev, List.append_assoc]
              · intro e he k
                rcases List.mem_append.mp he with hm | hm
                · exact fixedLeg_no_sleep o _ avail ev1 logs1 avail1 h4 e hm k
                · exact predictiveLeg_no_sleep o _ avail1 s.tracked
                    s.trackedBool ev2 logs2 tr b h5 e hm k
  · intro os s₀ hnf n
    induction n with
    | zero => exact ⟨s₀, rfl⟩
    | succ n ih =>
      obtain ⟨st, hst⟩ := ih
      have hne := hnf n st hst
      rcases hcy : StrategyManagerCycle (os n) st with ⟨out, ev, s'⟩
      rw [hcy] at hne
      cases out with
      | fatal => exact absurd rfl hne
      | earlyReturn =>
        refine ⟨s', ?_⟩
        simp only [engineTrace, hst, Option.bind, hcy]
      | completed =>
        refine ⟨s', ?_⟩
        simp only [engineTrace, hst, Option.bind, hcy]

lemma finishCycle_not_fatal (ev : List Event) (s : EngineState)
    (p : Option (List Event × List String × List CurrentPredictOrder × Bool)) :
    (finishCycle ev s p).1 ≠ CycleOutcome.fatal := by
  cases p with
  | none => exact fun h => CycleOutcome.noConfusion h
  | some quad =>
    obtain ⟨a, b, c, d⟩ := quad
    exact fun h => CycleOutcome.noConfusion h

lemma okOracle_fixedLeg_eval :
    fixedLeg okOracle
        (1000 * distributionFix - (1000 - 1000) * distributionFix) 1000 =
      some ([Event.submitFixed
          (1000 * distributionFix - (1000 - 1000) * distributionFix) 1 2],
        ["Failed to submit fixed lending order: " ++ "refused"],
        1000 - (1000 * distributionFix - (1000 - 1000) * distributionFix)) := by
  have hcl : ¬ ((1000 : ℚ) <
      1000 * distributionFix - (1000 - 1000) * distributionFix) := by
    norm_num [distributionFix]
  have hrf : (1000 : ℚ) * distributionFix - (1000 - 1000) * distributionFix >
      minOrderThreshold := by
    norm_num [distributionFix, minOrderThreshold]
  have hfind : FindHighestRateForShortestPeriod rowsOneGood =
      some ⟨1, 2, 1, -3⟩ := by decide
  simp only [fixedLeg]
  rw [if_neg hcl, if_pos hrf]
  simp only [show okOracle.bookRes = Except.ok rowsOneGood from rfl, hfind,
    show okOracle.fixedSubmit = Except.error "refused" from rfl]
  rw [if_pos hrf]

lemma okOracle_predictiveLeg_eval :
    predictiveLeg okOracle
        (1000 * distributionPredict - (1000 - 1000) * distributionPredict)
        (1000 - (1000 * distributionFix - (1000 - 1000) * distributionFix))
        [] false =
      some ([Event.submitPredict
          (1000 * distributionPredict - (1000 - 1000) * distributionPredict)
          (stat0.FRR * predictMultiplier) 2],
        [],
        [⟨offer0.ID, offer0.Rate, offer0.Period, offer0.CreatedAt⟩],
        true) := by
  have hcl : ¬ ((1000 : ℚ) -
        (1000 * distributionFix - (1000 - 1000) * distributionFix) <
      1000 * distributionPredict - (1000 - 1000) * distributionPredict) := by
    norm_num [distributionFix, distributionPredict]
  have hrp : (1000 : ℚ) * distributionPredict -
      (1000 - 1000) * distributionPredict > minOrderThreshold := by
    norm_num [distributionPredict, minOrderThreshold]
  simp only [predictiveLeg]
  rw [if_neg hcl, if_pos hrp]
  simp only [show okOracle.statsRes = Except.ok [stat0] from rfl,
    show okOracle.predictSubmit = Except.ok offer0 from rfl]
  rw [if_pos hrp]
  rfl

lemma okOracle_cycle_eval :
    StrategyManagerCycle okOracle ⟨[], false⟩ =
      (.completed,
        [Event.submitFixed
            (1000 * distributionFix - (1000 - 1000) * distributionFix) 1 2,
          Event.submitPredict
            (1000 * distributionPredict - (1000 - 1000) * distributionPredict)
            (stat0.FRR * predictMultiplier) 2,
          Event.sleep cycleSleepSeconds],
        ⟨[⟨offer0.ID, offer0.Rate, offer0.Period, offer0.CreatedAt⟩],
          true⟩) := by
  unfold StrategyManagerCycle
  simp only [show okOracle.totalRes = Except.ok ((1000 : ℚ), (0 : ℚ)) from rfl,
    show okOracle.walletsRes = Except.ok [("USD", (1000 : ℚ))] from rfl,
    show lookupBalance [("USD", (1000 : ℚ))] "USD" = some 1000 from rfl,
    okOracle_fixedLeg_eval, okOracle_predictiveLeg_eval, finishCycle]
  rfl

lemma okOracle_cycle_not_fatal :
    ∀ s : EngineState,
      (StrategyManagerCycle okOracle s).1 ≠ CycleOutcome.fatal := by
  intro s
  unfold StrategyManagerCycle
  simp only [show okOracle.totalRes = Except.ok ((1000 : ℚ), (0 : ℚ)) from rfl,
    show okOracle.walletsRes = Except.ok [("USD", (1000 : ℚ))] from rfl,
    show lookupBalance [("USD", (1000 : ℚ))] "USD" = some 1000 from rfl]
  cases h4 : fixedLeg okOracle
      (1000 * distributionFix - (1000 - 1000) * distributionFix) 1000 with
  | none =>
    exact fun h => CycleOutcome.noConfusion h
  | some trip =>
    obtain ⟨ev1, logs1, avail1⟩ := trip
    dsimp only
    exact finishCycle_not_fatal ev1 s _

/-- Witness for C3: on the concrete environment `okOracle` the completed
cycle's event list ends with the single 300-second sleep, and the
spec-modelled driver trace is still defined after three cycles. -/
theorem strategy_cycle_sleeps_and_repeats_witness :
    (∃ pre, (StrategyManagerCycle okOracle ⟨[], false⟩).2.1 =
        pre ++ [Event.sleep cycleSleepSeconds] ∧
        ∀ e ∈ pre, ∀ k, e ≠ Event.sleep k) ∧
    (∃ st, engineTrace (fun _ => okOracle) ⟨[], false⟩ 3 = some st) :=
  ⟨strategy_cycle_sleeps_and_repeats.1 okOracle ⟨[], false⟩
      (StrategyManagerCycle okOracle ⟨[], false⟩).1
      (StrategyManagerCycle okOracle ⟨[], false⟩).2.1
      (StrategyManagerCycle okOracle ⟨[], false⟩).2.2 rfl
      (by rw [okOracle_cycle_eval]),
   strategy_cycle_sleeps_and_repeats.2 (fun _ => okOracle) ⟨[], false⟩
      (fun n st _ => okOracle_cycle_not_fatal st) 3⟩
